import Mathlib

/-!
Verification of the pebble-backed datastore (src/datastore.go).

Byte strings are modelled as `List Nat` whose elements are below 256.
The embedding covers the range-bound computation of `Query`
(datastore.go:140-163), the order dispatch and base-order extraction
(datastore.go:170-200), the result streaming loops (datastore.go:208-317),
the `Close` lifecycle (datastore.go:367-377) and the batch writer
(datastore.go:411-435).
-/

namespace PebbleDS

/-! ### Range bound computation (datastore.go:140-163)

The Go code scans the byte string backwards for the last byte that is not
0xff, increments it and truncates the string after it; if every byte is
0xff (or the string is empty) there is no upper bound.  The recursion below
mirrors that scan: if the tail contains a non-0xff byte, the incremented
position lies in the tail; otherwise the head is the candidate. -/
def upperBound : List Nat → Option (List Nat)
  | [] => none
  | b :: rest =>
    match upperBound rest with
    | some u => some (b :: u)
    | none => if b = 255 then none else some [b + 1]

/-- Strict byte-lexicographic order on byte strings: a proper leading
segment is smaller, otherwise the first differing byte decides. -/
inductive LexLt : List Nat → List Nat → Prop
  | nil {b : Nat} {bs : List Nat} : LexLt [] (b :: bs)
  | head {a b : Nat} {as bs : List Nat} : a < b → LexLt (a :: as) (b :: bs)
  | tail {a : Nat} {as bs : List Nat} : LexLt as bs → LexLt (a :: as) (a :: bs)

/-- `leadsB P K` is true when `P` is a leading segment of `K`, i.e. the key
`K` starts with the byte string `P`. -/
def leadsB : List Nat → List Nat → Bool
  | [], _ => true
  | _ :: _, [] => false
  | a :: as, b :: bs => a = b && leadsB as bs

theorem not_lexLt_nil (as : List Nat) : ¬ LexLt as [] := by
  intro h
  cases h

theorem lexLt_cons_iff {a b : Nat} {as bs : List Nat} :
    LexLt (a :: as) (b :: bs) ↔ a < b ∨ (a = b ∧ LexLt as bs) := by
  constructor
  · intro h
    cases h with
    | head h => exact Or.inl h
    | tail h => exact Or.inr ⟨rfl, h⟩
  · rintro (h | ⟨rfl, h⟩)
    · exact LexLt.head h
    · exact LexLt.tail h

theorem upperBound_eq_none_iff (P : List Nat) :
    upperBound P = none ↔ ∀ b ∈ P, b = 255 := by
  induction P with
  | nil => simp [upperBound]
  | cons b rest ih =>
    simp only [upperBound]
    cases hr : upperBound rest with
    | some u =>
      simp only [hr]
      constructor
      · intro h
        exact absurd h (by simp)
      · intro h
        have : upperBound rest = none := (ih.mpr fun x hx => h x (by simp [hx]))
        rw [hr] at this
        exact absurd this (by simp)
    | none =>
      simp only [hr]
      constructor
      · intro h
        by_cases hb : b = 255
        · intro x hx
          rcases List.mem_cons.mp hx with rfl | hx
          · exact hb
          · exact (ih.mp hr) x hx
        · simp [hb] at h
      · intro h
        have hb : b = 255 := h b (by simp)
        simp [hb]

/-- Over an all-0xff byte string `R`, a byte string `ks` of genuine bytes is
not lexicographically below `R` exactly when `R` is a leading segment of
`ks`. -/
theorem not_lexLt_all255 (R : List Nat) :
    ∀ ks : List Nat, (∀ b ∈ R, b = 255) → (∀ b ∈ ks, b < 256) →
      (¬ LexLt ks R ↔ leadsB R ks = true) := by
  induction R with
  | nil =>
    intro ks _ _
    simp [leadsB, not_lexLt_nil]
  | cons r R' ih =>
    intro ks hR hks
    have hr : r = 255 := hR r (by simp)
    cases ks with
    | nil =>
      constructor
      · intro h
        exact absurd LexLt.nil h
      · intro h
        exact absurd h (by simp [leadsB])
    | cons x xs =>
      have hx : x < 256 := hks x (by simp)
      have hR' : ∀ b ∈ R', b = 255 := fun b hb => hR b (by simp [hb])
      have hxs : ∀ b ∈ xs, b < 256 := fun b hb => hks b (by simp [hb])
      rw [show (leadsB (r :: R') (x :: xs) = true) ↔ (r = x ∧ leadsB R' xs = true) by
        simp [leadsB]]
      constructor
      · intro h
        have hnotlt : ¬ x < r := fun hlt => h (LexLt.head hlt)
        have hxr : x = r := by omega
        refine ⟨hxr.symm, ?_⟩
        have : ¬ LexLt xs R' := by
          intro hlt
          exact h (hxr ▸ LexLt.tail hlt)
        exact (ih xs hR' hxs).mp this
      · rintro ⟨hrx, hlead⟩
        intro hcontra
        rcases lexLt_cons_iff.mp hcontra with h1 | ⟨h2, h3⟩
        · omega
        · exact (ih xs hR' hxs).mpr hlead h3

/-- Core range lemma: when the scan produces an upper bound `U` for the
byte string `P`, a key `K` starts with `P` exactly when `P ≤ K < U` in
byte-lexicographic order. -/
theorem range_iff (P : List Nat) :
    ∀ (U K : List Nat), (∀ b ∈ K, b < 256) → upperBound P = some U →
      (leadsB P K = true ↔ (¬ LexLt K P ∧ LexLt K U)) := by
  induction P with
  | nil =>
    intro U K _ h
    simp [upperBound] at h
  | cons b rest ih =>
    intro U K hK h
    simp only [upperBound] at h
    cases hr : upperBound rest with
    | some u =>
      rw [hr] at h
      have hU : U = b :: u := by
        simpa using h.symm
      subst hU
      cases K with
      | nil =>
        constructor
        · intro hl
          exact absurd hl (by simp [leadsB])
        · rintro ⟨hnl, _⟩
          exact absurd LexLt.nil hnl
      | cons k ks =>
        have hks : ∀ x ∈ ks, x < 256 := fun x hx => hK x (by simp [hx])
        rcases Nat.lt_trichotomy k b with hlt | rfl | hgt
        · constructor
          · intro hl
            have : b = k := by
              have := hl
              simp [leadsB] at this
              omega
            omega
          · rintro ⟨hnl, _⟩
            exact absurd (LexLt.head hlt) hnl
        · have hstep : leadsB (k :: rest) (k :: ks) = leadsB rest ks := by
            simp [leadsB]
          rw [hstep, ih u ks hks hr]
          constructor
          · rintro ⟨hnl, hlt⟩
            constructor
            · intro hlt2
              rcases lexLt_cons_iff.mp hlt2 with h1 | ⟨_, h1⟩
              · omega
              · exact hnl h1
            · exact LexLt.tail hlt
          · rintro ⟨hnl, hlt⟩
            constructor
            · intro hlt2
              exact hnl (LexLt.tail hlt2)
            · rcases lexLt_cons_iff.mp hlt with h1 | ⟨_, h1⟩
              · omega
              · exact h1
        · constructor
          · intro hl
            have : b = k := by
              simp [leadsB] at hl
              omega
            omega
          · rintro ⟨_, hlt⟩
            rcases lexLt_cons_iff.mp hlt with h1 | ⟨h1, _⟩
            · omega
            · omega
    | none =>
      rw [hr] at h
      have hb : ¬ b = 255 := by
        intro hb
        rw [if_pos hb] at h
        exact absurd h (by simp)
      rw [if_neg hb] at h
      have hU : U = [b + 1] := by simpa using h.symm
      subst hU
      have hrest : ∀ x ∈ rest, x = 255 := (upperBound_eq_none_iff rest).mp hr
      cases K with
      | nil =>
        constructor
        · intro hl
          exact absurd hl (by simp [leadsB])
        · rintro ⟨hnl, _⟩
          exact absurd LexLt.nil hnl
      | cons k ks =>
        have hks : ∀ x ∈ ks, x < 256 := fun x hx => hK x (by simp [hx])
        rcases Nat.lt_trichotomy k b with hlt | rfl | hgt
        · constructor
          · intro hl
            have : b = k := by
              simp [leadsB] at hl
              omega
            omega
          · rintro ⟨hnl, _⟩
            exact absurd (LexLt.head hlt) hnl
        · have hstep : leadsB (k :: rest) (k :: ks) = leadsB rest ks := by
            simp [leadsB]
          rw [hstep, ← not_lexLt_all255 rest ks hrest hks]
          constructor
          · intro hnl
            refine ⟨?_, LexLt.head (by omega)⟩
            intro hlt
            rcases lexLt_cons_iff.mp hlt with h1 | ⟨_, h1⟩
            · omega
            · exact hnl h1
          · rintro ⟨hnl, _⟩
            intro hlt
            exact hnl (LexLt.tail hlt)
        · constructor
          · intro hl
            have : b = k := by
              simp [leadsB] at hl
              omega
            omega
          · rintro ⟨_, hlt⟩
            rcases lexLt_cons_iff.mp hlt with h1 | ⟨h1, h2⟩
            · omega
            · exact absurd h2 (not_lexLt_nil ks)

/-- C1: for every byte string P, the computed upper bound is unbounded
exactly when P is empty or all bytes are 0xff; and whenever a finite upper
bound U is produced, a key K (of genuine bytes) starts with P exactly when
P ≤ K < U in byte-lexicographic order. -/
theorem upperBound_spec (P K : List Nat) (hK : ∀ b ∈ K, b < 256) :
    (upperBound P = none ↔ ∀ b ∈ P, b = 255) ∧
    (∀ U, upperBound P = some U →
      (leadsB P K = true ↔ (¬ LexLt K P ∧ LexLt K U))) :=
  ⟨upperBound_eq_none_iff P, fun U h => range_iff P U K hK h⟩

theorem upperBound_spec_witness :
    (∀ b ∈ ([0, 255, 7] : List Nat), b < 256) ∧
    ((upperBound [0, 255] = none ↔ ∀ b ∈ ([0, 255] : List Nat), b = 255) ∧
      (∀ U, upperBound [0, 255] = some U →
        (leadsB [0, 255] [0, 255, 7] = true ↔
          (¬ LexLt [0, 255, 7] [0, 255] ∧ LexLt [0, 255, 7] U)))) :=
  ⟨by decide, upperBound_spec [0, 255] [0, 255, 7] (by decide)⟩

/-! ### Result streaming (datastore.go:202-317)

The pebble iterator is an external collaborator; it is modelled as the
list of positions the cursor visits, in visit order.  Each position
carries the value of `iter.Error()` at that step, the current key, and
the result of `iter.ValueAndErr()` (`none` when reading the value fails). -/

/-- One cursor position: `err` is `iter.Error()` there, `key` is
`iter.Key()`, `value` is `iter.ValueAndErr()` (`none` = read failure). -/
structure Pos where
  err : Option String
  key : List Nat
  value : Option (List Nat)
  deriving DecidableEq

/-- A query result entry (go-datastore `query.Entry` as used here). -/
structure Entry where
  key : List Nat
  value : Option (List Nat)
  size : Option Nat
  deriving DecidableEq

/-- A result delivered on the stream (go-datastore `query.Result`). -/
inductive Event
  | entry (e : Entry)
  | error (msg : String)
  deriving DecidableEq

/-- Query parameters reaching the streaming loops: the filter list and the
two projection flags. -/
structure QP where
  filters : List (Entry → Bool)
  keysOnly : Bool
  returnSizes : Bool

/-- datastore.go:209-216: an entry is kept when every filter accepts it. -/
def filterFn (q : QP) (e : Entry) : Bool := q.filters.all fun f => f e

/-- datastore.go:217-220: filters are consulted only when some exist. -/
def doFilter (q : QP) : Bool := decide (0 < q.filters.length)

/-- datastore.go:222-246 `createEntry`: the key is always copied out; the
value is read unless `keysOnly`; the size is read when `returnSizes`;
a failed value read aborts entry construction. -/
def createEntry (keysOnly returnSizes : Bool) (p : Pos) : Option Entry :=
  let e0 : Entry := ⟨p.key, none, none⟩
  let step1 : Option Entry :=
    if keysOnly then some e0
    else
      match p.value with
      | none => none
      | some v => some { e0 with value := some v }
  match step1 with
  | none => none
  | some e1 =>
    if returnSizes then
      match p.value with
      | none => none
      | some v => some { e1 with size := some v.length }
    else some e1

/-- datastore.go:284-287 and 301-303: at each loop iteration a non-nil
`iter.Error()` is sent to the consumer as an error result. -/
def errEvents (p : Pos) : List Event :=
  match p.err with
  | some e => [Event.error e]
  | none => []

/-- datastore.go:282-298, the skip loop: `for skipped := 0; skipped <
offset && iter.Valid(); move()` — at each position any cursor error is
sent, a failed entry construction or a filtered-out entry advances without
counting, and only filter-passing entries consume offset slots.  Returns
the events sent during the skip phase and the unconsumed positions. -/
def skipLoop (q : QP) : List Pos → Int → List Event × List Pos
  | [], _ => ([], [])
  | p :: rest, rem =>
    if rem ≤ 0 then ([], p :: rest)
    else
      match createEntry q.keysOnly q.returnSizes p with
      | none => (errEvents p ++ (skipLoop q rest rem).1, (skipLoop q rest rem).2)
      | some e =>
        if doFilter q && !filterFn q e then
          (errEvents p ++ (skipLoop q rest rem).1, (skipLoop q rest rem).2)
        else
          (errEvents p ++ (skipLoop q rest (rem - 1)).1,
            (skipLoop q rest (rem - 1)).2)

/-- datastore.go:300-316, the emit loop: `for sent := 0; (limit <= 0 ||
sent < limit) && iter.Valid(); move()` — cursor errors are sent in-band,
failed entry construction and filtered-out entries are skipped silently,
and each delivered entry increments `sent`. -/
def emitLoop (q : QP) (limit : Int) : List Pos → Int → List Event
  | [], _ => []
  | p :: rest, sent =>
    if limit ≤ 0 ∨ sent < limit then
      errEvents p ++
        match createEntry q.keysOnly q.returnSizes p with
        | none => emitLoop q limit rest sent
        | some e =>
          if doFilter q && !filterFn q e then emitLoop q limit rest sent
          else Event.entry e :: emitLoop q limit rest (sent + 1)
    else []

/-- The full event sequence a Query streamer delivers to a consumer that
keeps receiving: the skip phase followed by the emit phase
(datastore.go:249-317). -/
def streamEvents (q : QP) (offset limit : Int) (ps : List Pos) : List Event :=
  (skipLoop q ps offset).1 ++ emitLoop q limit (skipLoop q ps offset).2 0

/-- Entries that survive materialization, as the loops see them. -/
def keepB (q : QP) (e : Entry) : Bool := !(doFilter q && !filterFn q e)

/-- The filter-passing entries materializable from a run of positions. -/
def filteredEntries (q : QP) (ps : List Pos) : List Entry :=
  (ps.filterMap (createEntry q.keysOnly q.returnSizes)).filter (keepB q)

theorem skipLoop_nonpos (q : QP) (ps : List Pos) (rem : Int) (h : rem ≤ 0) :
    skipLoop q ps rem = ([], ps) := by
  cases ps with
  | nil => simp [skipLoop]
  | cons p rest => simp [skipLoop, h]

theorem emitLoop_nonpos (q : QP) (limit : Int) (hl : limit ≤ 0) :
    ∀ (ps : List Pos) (sent : Int), emitLoop q limit ps sent = emitLoop q 0 ps sent := by
  intro ps
  induction ps with
  | nil => intro sent; simp [emitLoop]
  | cons p rest ih =>
    intro sent
    have hc : (limit ≤ 0 ∨ sent < limit) := Or.inl hl
    have hc0 : ((0 : Int) ≤ 0 ∨ sent < 0) := Or.inl le_rfl
    simp only [emitLoop, if_pos hc, if_pos hc0]
    cases hce : createEntry q.keysOnly q.returnSizes p with
    | none => rw [ih]
    | some e =>
      by_cases hf : (doFilter q && !filterFn q e) = true
      · simp only [hf, if_true, ih]
      · simp only [hf, if_false, Bool.false_eq_true, ih]

/-- C9: a Query with a negative limit streams exactly as if the limit were
0 (unbounded): the emit loop's guard `limit <= 0 || sent < limit` treats
every non-positive limit alike, so entries flow until cursor exhaustion. -/
theorem negative_limit_unbounded (q : QP) (offset limit : Int) (ps : List Pos)
    (h : limit < 0) :
    streamEvents q offset limit ps = streamEvents q offset 0 ps := by
  unfold streamEvents
  rw [emitLoop_nonpos q limit (le_of_lt h)]

theorem negative_limit_unbounded_witness :
    (-1 : Int) < 0 ∧
    streamEvents ⟨[], false, false⟩ 0 (-1) [⟨none, [3], some [9]⟩]
      = streamEvents ⟨[], false, false⟩ 0 0 [⟨none, [3], some [9]⟩] :=
  ⟨by decide, negative_limit_unbounded ⟨[], false, false⟩ 0 (-1)
    [⟨none, [3], some [9]⟩] (by decide)⟩

theorem skipLoop_mem (q : QP) (ps : List Pos) :
    ∀ (rem : Int) (x : Pos), x ∈ (skipLoop q ps rem).2 → x ∈ ps := by
  induction ps with
  | nil => intro rem x hx; simp [skipLoop] at hx
  | cons p rest ih =>
    intro rem x hx
    by_cases h0 : rem ≤ 0
    · rw [skipLoop_nonpos q _ _ h0] at hx
      exact hx
    · cases hce : createEntry q.keysOnly q.returnSizes p with
      | none =>
        simp only [skipLoop, if_neg h0, hce] at hx
        exact List.mem_cons_of_mem _ (ih rem x hx)
      | some e =>
        by_cases hf : (doFilter q && !filterFn q e) = true
        · simp only [skipLoop, if_neg h0, hce, hf, if_true] at hx
          exact List.mem_cons_of_mem _ (ih rem x hx)
        · simp only [skipLoop, if_neg h0, hce, hf, if_false, Bool.false_eq_true] at hx
          exact List.mem_cons_of_mem _ (ih (rem - 1) x hx)

/-- When no position reports a cursor error, the skip phase emits nothing
and consumes exactly `offset` filter-passing entries: the filtered view of
the remaining positions is the filtered view of the input with the first
`offset` entries dropped. -/
theorem skipLoop_clean (q : QP) (ps : List Pos) :
    ∀ rem : Int, (∀ p ∈ ps, p.err = none) →
      (skipLoop q ps rem).1 = [] ∧
      filteredEntries q (skipLoop q ps rem).2
        = (filteredEntries q ps).drop rem.toNat := by
  induction ps with
  | nil =>
    intro rem _
    simp [skipLoop, filteredEntries]
  | cons p rest ih =>
    intro rem herr
    have herrp : p.err = none := herr p (by simp)
    have herrr : ∀ x ∈ rest, x.err = none := fun x hx => herr x (by simp [hx])
    by_cases h0 : rem ≤ 0
    · rw [skipLoop_nonpos q _ _ h0]
      have hz : rem.toNat = 0 := Int.toNat_of_nonpos h0
      simp [hz]
    · have herrev : errEvents p = [] := by simp [errEvents, herrp]
      cases hce : createEntry q.keysOnly q.returnSizes p with
      | none =>
        have hfe : filteredEntries q (p :: rest) = filteredEntries q rest := by
          simp [filteredEntries, List.filterMap_cons, hce]
        simp only [skipLoop, if_neg h0, hce, herrev, List.nil_append]
        rw [hfe]
        exact ih rem herrr
      | some e =>
        by_cases hf : (doFilter q && !filterFn q e) = true
        · have hkeep : keepB q e = false := by simp [keepB, hf]
          have hfe : filteredEntries q (p :: rest) = filteredEntries q rest := by
            simp [filteredEntries, List.filterMap_cons, hce, List.filter_cons, hkeep]
          simp only [skipLoop, if_neg h0, hce, hf, if_true, herrev, List.nil_append]
          rw [hfe]
          exact ih rem herrr
        · have hX : (doFilter q && !filterFn q e) = false :=
            Bool.eq_false_iff.mpr hf
          have hkeep : keepB q e = true := by simp [keepB, hX]
          have hfe : filteredEntries q (p :: rest) = e :: filteredEntries q rest := by
            simp [filteredEntries, List.filterMap_cons, hce, List.filter_cons, hkeep]
          simp only [skipLoop, if_neg h0, hce, hX, if_false, Bool.false_eq_true,
            herrev, List.nil_append]
          refine ⟨(ih (rem - 1) herrr).1, ?_⟩
          rw [(ih (rem - 1) herrr).2, hfe]
          have hsucc : rem.toNat = (rem - 1).toNat + 1 := by omega
          rw [hsucc, List.drop_succ_cons]

/-- With a non-positive (unbounded) limit and no cursor errors, the emit
loop delivers every filter-passing materializable entry in order. -/
theorem emitLoop_unbounded (q : QP) (ps : List Pos) :
    ∀ sent : Int, (∀ p ∈ ps, p.err = none) →
      emitLoop q 0 ps sent = (filteredEntries q ps).map Event.entry := by
  induction ps with
  | nil => intro sent _; simp [emitLoop, filteredEntries]
  | cons p rest ih =>
    intro sent herr
    have herrev : errEvents p = [] := by simp [errEvents, herr p (by simp)]
    have herrr : ∀ x ∈ rest, x.err = none := fun x hx => herr x (by simp [hx])
    have hc : ((0 : Int) ≤ 0 ∨ sent < 0) := Or.inl le_rfl
    cases hce : createEntry q.keysOnly q.returnSizes p with
    | none =>
      have hfe : filteredEntries q (p :: rest) = filteredEntries q rest := by
        simp [filteredEntries, List.filterMap_cons, hce]
      simp only [emitLoop, if_pos hc, hce, herrev, List.nil_append]
      rw [hfe]
      exact ih sent herrr
    | some e =>
      by_cases hf : (doFilter q && !filterFn q e) = true
      · have hkeep : keepB q e = false := by simp [keepB, hf]
        have hfe : filteredEntries q (p :: rest) = filteredEntries q rest := by
          simp [filteredEntries, List.filterMap_cons, hce, List.filter_cons, hkeep]
        simp only [emitLoop, if_pos hc, hce, hf, if_true, herrev, List.nil_append]
        rw [hfe]
        exact ih sent herrr
      · have hX : (doFilter q && !filterFn q e) = false := Bool.eq_false_iff.mpr hf
        have hkeep : keepB q e = true := by simp [keepB, hX]
        have hfe : filteredEntries q (p :: rest) = e :: filteredEntries q rest := by
          simp [filteredEntries, List.filterMap_cons, hce, List.filter_cons, hkeep]
        simp only [emitLoop, if_pos hc, hce, hX, if_false, Bool.false_eq_true,
          herrev, List.nil_append]
        rw [hfe, ih (sent + 1) herrr]
        simp

/-- With a positive limit and no cursor errors, the emit loop delivers
exactly the first `limit - sent` remaining filter-passing entries. -/
theorem emitLoop_pos (q : QP) (ps : List Pos) :
    ∀ (limit sent : Int), 0 < limit → (∀ p ∈ ps, p.err = none) →
      emitLoop q limit ps sent
        = ((filteredEntries q ps).take (limit - sent).toNat).map Event.entry := by
  induction ps with
  | nil => intro limit sent _ _; simp [emitLoop, filteredEntries]
  | cons p rest ih =>
    intro limit sent hl herr
    have herrev : errEvents p = [] := by simp [errEvents, herr p (by simp)]
    have herrr : ∀ x ∈ rest, x.err = none := fun x hx => herr x (by simp [hx])
    by_cases hs : sent < limit
    · have hc : (limit ≤ 0 ∨ sent < limit) := Or.inr hs
      cases hce : createEntry q.keysOnly q.returnSizes p with
      | none =>
        have hfe : filteredEntries q (p :: rest) = filteredEntries q rest := by
          simp [filteredEntries, List.filterMap_cons, hce]
        simp only [emitLoop, if_pos hc, hce, herrev, List.nil_append]
        rw [hfe]
        exact ih limit sent hl herrr
      | some e =>
        by_cases hf : (doFilter q && !filterFn q e) = true
        · have hkeep : keepB q e = false := by simp [keepB, hf]
          have hfe : filteredEntries q (p :: rest) = filteredEntries q rest := by
            simp [filteredEntries, List.filterMap_cons, hce, List.filter_cons, hkeep]
          simp only [emitLoop, if_pos hc, hce, hf, if_true, herrev, List.nil_append]
          rw [hfe]
          exact ih limit sent hl herrr
        · have hX : (doFilter q && !filterFn q e) = false := Bool.eq_false_iff.mpr hf
          have hkeep : keepB q e = true := by simp [keepB, hX]
          have hfe : filteredEntries q (p :: rest) = e :: filteredEntries q rest := by
            simp [filteredEntries, List.filterMap_cons, hce, List.filter_cons, hkeep]
          simp only [emitLoop, if_pos hc, hce, hX, if_false, Bool.false_eq_true,
            herrev, List.nil_append]
          rw [hfe, ih limit (sent + 1) hl herrr]
          have hsucc : (limit - sent).toNat = (limit - (sent + 1)).toNat + 1 := by
            omega
          rw [hsucc, List.take_succ_cons]
          simp
    · have hc : ¬ (limit ≤ 0 ∨ sent < limit) := by omega
      have hz : (limit - sent).toNat = 0 := by omega
      simp [emitLoop, if_neg hc, hz]

/-- C5: with offset k ≥ 0 and limit n > 0 over an error-free cursor run,
the stream delivers exactly the entries at positions [k, k+n) of the
filtered materialized sequence, equal to the unbounded-limit stream sliced
accordingly; filtered-out entries never consume an offset slot. -/
theorem offset_limit_slices (q : QP) (offset limit : Int) (ps : List Pos)
    (hoff : 0 ≤ offset) (hlim : 0 < limit) (herr : ∀ p ∈ ps, p.err = none) :
    streamEvents q offset limit ps
      = (((filteredEntries q ps).drop offset.toNat).take limit.toNat).map
          Event.entry ∧
    streamEvents q offset limit ps
      = ((streamEvents q 0 0 ps).drop offset.toNat).take limit.toNat := by
  have hskip := skipLoop_clean q ps offset herr
  have herr2 : ∀ x ∈ (skipLoop q ps offset).2, x.err = none :=
    fun x hx => herr x (skipLoop_mem q ps offset x hx)
  have hmain : streamEvents q offset limit ps
      = (((filteredEntries q ps).drop offset.toNat).take limit.toNat).map
          Event.entry := by
    unfold streamEvents
    rw [hskip.1, List.nil_append, emitLoop_pos q _ limit 0 hlim herr2, hskip.2]
    norm_num
  refine ⟨hmain, ?_⟩
  have hub : streamEvents q 0 0 ps = (filteredEntries q ps).map Event.entry := by
    unfold streamEvents
    rw [skipLoop_nonpos q ps 0 le_rfl]
    simpa using emitLoop_unbounded q ps 0 herr
  rw [hub, ← List.map_drop, ← List.map_take]
  exact hmain

theorem offset_limit_slices_witness :
    ((0 : Int) ≤ 1 ∧ (0 : Int) < 1 ∧
      (∀ p ∈ ([⟨none, [10], some [1]⟩, ⟨none, [11], some [2, 2]⟩,
        ⟨none, [12], some [3]⟩] : List Pos), p.err = none)) ∧
    (streamEvents ⟨[fun e => decide (e.key ≠ [11])], false, false⟩ 1 1
        [⟨none, [10], some [1]⟩, ⟨none, [11], some [2, 2]⟩, ⟨none, [12], some [3]⟩]
      = (((filteredEntries ⟨[fun e => decide (e.key ≠ [11])], false, false⟩
            [⟨none, [10], some [1]⟩, ⟨none, [11], some [2, 2]⟩,
              ⟨none, [12], some [3]⟩]).drop (1 : Int).toNat).take
          (1 : Int).toNat).map Event.entry ∧
     streamEvents ⟨[fun e => decide (e.key ≠ [11])], false, false⟩ 1 1
        [⟨none, [10], some [1]⟩, ⟨none, [11], some [2, 2]⟩, ⟨none, [12], some [3]⟩]
      = ((streamEvents ⟨[fun e => decide (e.key ≠ [11])], false, false⟩ 0 0
            [⟨none, [10], some [1]⟩, ⟨none, [11], some [2, 2]⟩,
              ⟨none, [12], some [3]⟩]).drop (1 : Int).toNat).take
          (1 : Int).toNat) :=
  ⟨⟨by decide, by decide, by decide⟩,
    offset_limit_slices ⟨[fun e => decide (e.key ≠ [11])], false, false⟩ 1 1
      [⟨none, [10], some [1]⟩, ⟨none, [11], some [2, 2]⟩, ⟨none, [12], some [3]⟩]
      (by decide) (by decide) (by decide)⟩

/-- C10: a position whose entry cannot be materialized (value read fails)
and which reports no cursor error is silently dropped: the stream is the
same as if the position were absent — no error event is produced for it,
and it consumes no offset slot during the skip phase. -/
theorem materialization_failure_dropped (q : QP) (offset limit : Int)
    (p : Pos) (rest : List Pos) (herr : p.err = none)
    (hfail : createEntry q.keysOnly q.returnSizes p = none) :
    streamEvents q offset limit (p :: rest) = streamEvents q offset limit rest := by
  have herrev : errEvents p = [] := by simp [errEvents, herr]
  unfold streamEvents
  by_cases h0 : offset ≤ 0
  · rw [skipLoop_nonpos q _ _ h0, skipLoop_nonpos q rest _ h0]
    have hc : (limit ≤ 0 ∨ (0 : Int) < limit) := by omega
    simp only [emitLoop, if_pos hc, hfail, herrev, List.nil_append]
  · simp only [skipLoop, if_neg h0, hfail, herrev, List.nil_append]

theorem materialization_failure_dropped_witness :
    ((⟨none, [5], none⟩ : Pos).err = none ∧
      createEntry false false ⟨none, [5], none⟩ = none) ∧
    streamEvents ⟨[], false, false⟩ 0 0
        [⟨none, [5], none⟩, ⟨none, [6], some [1]⟩]
      = streamEvents ⟨[], false, false⟩ 0 0 [⟨none, [6], some [1]⟩] :=
  ⟨⟨by decide, by decide⟩,
    materialization_failure_dropped ⟨[], false, false⟩ 0 0 ⟨none, [5], none⟩
      [⟨none, [6], some [1]⟩] (by decide) (by decide)⟩

/-- C3 as stated is false: after delivering a cursor error as a result,
the loops keep iterating.  Here the stream delivers an error event and
then two further entry events on the same stream. -/
theorem stream_error_not_terminal_cex :
    streamEvents ⟨[], false, false⟩ 0 0
        [⟨some "boom", [1], some [7]⟩, ⟨none, [2], some [8]⟩]
      = [Event.error "boom", Event.entry ⟨[1], some [7], none⟩,
          Event.entry ⟨[2], some [8], none⟩] := by
  rfl

/-- C3 (amended): a cursor error observed at a position the loops visit is
delivered in-band as an error result, but it is not terminal — the stream
continues with the events of the remaining iteration. -/
theorem stream_error_delivered (q : QP) (limit rem sent : Int) (p : Pos)
    (rest : List Pos) (e : String) (he : p.err = some e)
    (hrem : 0 < rem) (hc : limit ≤ 0 ∨ sent < limit) :
    (∃ t, (skipLoop q (p :: rest) rem).1 = Event.error e :: t) ∧
    (∃ t, emitLoop q limit (p :: rest) sent = Event.error e :: t) := by
  have herrev : errEvents p = [Event.error e] := by simp [errEvents, he]
  have h0 : ¬ rem ≤ 0 := by omega
  constructor
  · cases hce : createEntry q.keysOnly q.returnSizes p with
    | none =>
      refine ⟨(skipLoop q rest rem).1, ?_⟩
      simp [skipLoop, if_neg h0, hce, herrev]
    | some en =>
      by_cases hf : (doFilter q && !filterFn q en) = true
      · refine ⟨(skipLoop q rest rem).1, ?_⟩
        simp [skipLoop, if_neg h0, hce, hf, herrev]
      · refine ⟨(skipLoop q rest (rem - 1)).1, ?_⟩
        simp [skipLoop, if_neg h0, hce, hf, herrev]
  · cases hce : createEntry q.keysOnly q.returnSizes p with
    | none =>
      refine ⟨emitLoop q limit rest sent, ?_⟩
      simp [emitLoop, if_pos hc, hce, herrev]
    | some en =>
      by_cases hf : (doFilter q && !filterFn q en) = true
      · refine ⟨emitLoop q limit rest sent, ?_⟩
        simp [emitLoop, if_pos hc, hce, hf, herrev]
      · refine ⟨Event.entry en :: emitLoop q limit rest (sent + 1), ?_⟩
        simp [emitLoop, if_pos hc, hce, hf, herrev]

theorem stream_error_delivered_witness :
    ((⟨some "boom", [1], some [7]⟩ : Pos).err = some "boom" ∧
      (0 : Int) < 1 ∧ ((0 : Int) ≤ 0 ∨ (0 : Int) < 0)) ∧
    ((∃ t, (skipLoop ⟨[], false, false⟩
        [⟨some "boom", [1], some [7]⟩] 1).1 = Event.error "boom" :: t) ∧
      (∃ t, emitLoop ⟨[], false, false⟩ 0
        [⟨some "boom", [1], some [7]⟩] 0 = Event.error "boom" :: t)) :=
  ⟨⟨by decide, by decide, by decide⟩,
    stream_error_delivered ⟨[], false, false⟩ 0 1 0 ⟨some "boom", [1], some [7]⟩
      [] "boom" (by decide) (by decide) (by decide)⟩

/-! ### Order dispatch and base-order extraction (datastore.go:170-200) -/

/-- go-datastore order variants as the type switch sees them: the two key
orders and any other (opaque) comparator, tagged to keep values distinct. -/
inductive OrderSpec
  | byKey
  | byKeyDescending
  | other (tag : Nat)
  deriving DecidableEq

/-- Matches the `case query.OrderByKey, query.OrderByKeyDescending, ...`
arms of the type switch. -/
def isKeyOrder : OrderSpec → Bool
  | .byKey => true
  | .byKeyDescending => true
  | .other _ => false

/-- datastore.go:188-197, the base-order extraction loop of the multi-order
branch: for each order, if `baseOrder` is already set the function errors
with "incompatible orders passed"; otherwise a key-order becomes the base
order. -/
def scanOrders : List OrderSpec → Option OrderSpec → Except Unit (Option OrderSpec)
  | [], base => .ok base
  | o :: rest, base =>
    if base.isSome then .error ()
    else scanOrders rest (if isKeyOrder o then some o else base)

/-- The strategy `Query` picks from the orders list. -/
inductive PlanOutcome
  | nativeAsc
  | nativeDesc
  | fallback (base : Option OrderSpec)
  | planError
  deriving DecidableEq

/-- datastore.go:170-200, the dispatch over `len(orders)`: zero orders or a
single ascending key order iterate natively forward, a single descending
key order natively backward, a single other order falls back with no base
order, and two or more orders run the extraction loop, erroring or falling
back with the extracted base. -/
def planQuery : List OrderSpec → PlanOutcome
  | [] => .nativeAsc
  | [o] =>
    match o with
    | .byKey => .nativeAsc
    | .byKeyDescending => .nativeDesc
    | .other _ => .fallback none
  | a :: b :: l =>
    match scanOrders (a :: b :: l) none with
    | .error _ => .planError
    | .ok base => .fallback base

/-- The whole Query call on an orders list, with the cursor's forward and
backward runs supplied and the fallback path abstracted as a function of
the extracted base order: a planning error yields no event stream at all. -/
def queryRun (q : QP) (offset limit : Int) (fb : Option OrderSpec → List Event)
    (orders : List OrderSpec) (asc desc : List Pos) :
    Except Unit (List Event) :=
  match planQuery orders with
  | .nativeAsc => .ok (streamEvents q offset limit asc)
  | .nativeDesc => .ok (streamEvents q offset limit desc)
  | .fallback base => .ok (fb base)
  | .planError => .error ()

/-- The key order sitting at the last position of the list, if any: the
only shape of multi-order list the extraction loop accepts. -/
def lastBase : List OrderSpec → Option OrderSpec
  | [] => none
  | [o] => if isKeyOrder o then some o else none
  | _ :: b :: l => lastBase (b :: l)

theorem scanOrders_some_base (orders : List OrderSpec) (b : OrderSpec)
    (h : orders ≠ []) : scanOrders orders (some b) = .error () := by
  cases orders with
  | nil => exact absurd rfl h
  | cons o rest => simp [scanOrders]

/-- Characterization of the extraction loop: it errors exactly when a key
order occupies a non-final position, and otherwise extracts the key order
at the final position (if the final element is one). -/
theorem scanOrders_eq (orders : List OrderSpec) (h : orders ≠ []) :
    scanOrders orders none =
      (if orders.dropLast.any isKeyOrder then Except.error ()
        else Except.ok (lastBase orders)) := by
  induction orders with
  | nil => exact absurd rfl h
  | cons o rest ih =>
    cases rest with
    | nil =>
      by_cases hk : isKeyOrder o
      · simp [scanOrders, lastBase, hk, List.dropLast]
      · simp [scanOrders, lastBase, hk, List.dropLast]
    | cons r rs =>
      by_cases hk : isKeyOrder o
      · have h1 : scanOrders (o :: r :: rs) none = scanOrders (r :: rs) (some o) := by
          simp [scanOrders, hk]
        rw [h1, scanOrders_some_base (r :: rs) o (by simp)]
        have h2 : (o :: r :: rs).dropLast.any isKeyOrder = true := by
          simp [List.dropLast, hk]
        rw [h2]
        simp
      · have h1 : scanOrders (o :: r :: rs) none = scanOrders (r :: rs) none := by
          simp [scanOrders, hk]
        rw [h1, ih (by simp)]
        have h2 : (o :: r :: rs).dropLast.any isKeyOrder
            = (r :: rs).dropLast.any isKeyOrder := by
          simp [List.dropLast, hk]
        rw [h2]
        rfl

/-- C2 is false as stated: a key order followed by any further order makes
the extraction loop error, so orders = [ByKeyAscending, Other] — which the
claim says must succeed — yields the incompatible-orders planning error. -/
theorem key_order_then_other_errors :
    planQuery [OrderSpec.byKey, OrderSpec.other 0] = PlanOutcome.planError := by
  rfl

/-- C2 (amended): a multi-element orders list whose non-final positions
hold no key order is accepted: the planner reports no error and executes
the fallback path with the key order at the final position (if the final
element is one) extracted as the base order. -/
theorem multi_order_fallback (orders : List OrderSpec)
    (h2 : 2 ≤ orders.length)
    (hnk : orders.dropLast.any isKeyOrder = false) :
    planQuery orders = .fallback (lastBase orders) := by
  cases orders with
  | nil => simp at h2
  | cons a rest =>
    cases rest with
    | nil => simp at h2
    | cons b l =>
      have h1 : planQuery (a :: b :: l)
          = (match scanOrders (a :: b :: l) none with
              | .error _ => PlanOutcome.planError
              | .ok base => PlanOutcome.fallback base) := rfl
      rw [h1, scanOrders_eq (a :: b :: l) (by simp), hnk]
      simp

theorem multi_order_fallback_witness :
    (2 ≤ ([OrderSpec.other 0, OrderSpec.byKey] : List OrderSpec).length ∧
      ([OrderSpec.other 0, OrderSpec.byKey] : List OrderSpec).dropLast.any
        isKeyOrder = false) ∧
    planQuery [OrderSpec.other 0, OrderSpec.byKey]
      = PlanOutcome.fallback (some OrderSpec.byKey) :=
  ⟨⟨by decide, by decide⟩,
    multi_order_fallback [OrderSpec.other 0, OrderSpec.byKey] (by decide)
      (by decide)⟩

theorem keyOrder_nonfinal_of_both (orders : List OrderSpec)
    (h1 : OrderSpec.byKey ∈ orders) (h2 : OrderSpec.byKeyDescending ∈ orders) :
    orders.dropLast.any isKeyOrder = true := by
  induction orders with
  | nil => simp at h1
  | cons a rest ih =>
    cases rest with
    | nil =>
      rcases List.mem_singleton.mp h1 with rfl
      rcases List.mem_singleton.mp h2 with h2'
      exact absurd h2' (by simp)
    | cons b l =>
      by_cases ha : isKeyOrder a
      · simp [List.dropLast, ha]
      · have h1' : OrderSpec.byKey ∈ b :: l := by
          rcases List.mem_cons.mp h1 with rfl | h1'
          · exact absurd rfl ha
          · exact h1'
        have h2' : OrderSpec.byKeyDescending ∈ b :: l := by
          rcases List.mem_cons.mp h2 with rfl | h2'
          · exact absurd rfl ha
          · exact h2'
        have := ih h1' h2'
        simp [List.dropLast, this]

/-- C6: an orders list containing both key orders (ascending and
descending) makes Query return the incompatible-orders planning error
before any iteration: no event stream is produced, whatever the cursor
contents or the fallback would have yielded. -/
theorem conflicting_orders_error (q : QP) (offset limit : Int)
    (fb : Option OrderSpec → List Event) (asc desc : List Pos)
    (orders : List OrderSpec)
    (h1 : OrderSpec.byKey ∈ orders) (h2 : OrderSpec.byKeyDescending ∈ orders) :
    queryRun q offset limit fb orders asc desc = .error () := by
  cases orders with
  | nil => simp at h1
  | cons a rest =>
    cases rest with
    | nil =>
      rcases List.mem_singleton.mp h1 with rfl
      rcases List.mem_singleton.mp h2 with h2'
      exact absurd h2' (by simp)
    | cons b l =>
      have hany := keyOrder_nonfinal_of_both (a :: b :: l) h1 h2
      have hplan : planQuery (a :: b :: l) = .planError := by
        have hq : planQuery (a :: b :: l)
            = (match scanOrders (a :: b :: l) none with
                | .error _ => PlanOutcome.planError
                | .ok base => PlanOutcome.fallback base) := rfl
        rw [hq, scanOrders_eq (a :: b :: l) (by simp), hany]
        simp
      simp [queryRun, hplan]

theorem conflicting_orders_error_witness :
    (OrderSpec.byKey ∈ ([OrderSpec.byKey, OrderSpec.byKeyDescending] :
        List OrderSpec) ∧
      OrderSpec.byKeyDescending ∈ ([OrderSpec.byKey, OrderSpec.byKeyDescending] :
        List OrderSpec)) ∧
    queryRun ⟨[], false, false⟩ 0 0 (fun _ => [])
      [OrderSpec.byKey, OrderSpec.byKeyDescending] [] [] = .error () :=
  ⟨⟨by decide, by decide⟩,
    conflicting_orders_error ⟨[], false, false⟩ 0 0 (fun _ => []) [] []
      [OrderSpec.byKey, OrderSpec.byKeyDescending] (by decide) (by decide)⟩

/-- How many times the iterator acquired at datastore.go:165 is closed on
each dispatch path of Query: the native paths hand it to the streamer whose
deferred close runs once (datastore.go:251), the invalid-cursor early
return closes it once (datastore.go:203), the fallback paths close it once
through the deferred close (datastore.go:184, 198) — but the
incompatible-orders error return (datastore.go:191) happens before the
deferred close of line 198 is registered, so that path closes it zero
times. -/
def iterCloseCount (orders : List OrderSpec) : Nat :=
  match orders with
  | [] => 1
  | [_] => 1
  | a :: b :: l =>
    match scanOrders (a :: b :: l) none with
    | .error _ => 0
    | .ok _ => 1

/-- C4 fails on the incompatible-orders exit path: Query returns the
planning error without closing the acquired iterator — the cursor is
released zero times there, not exactly once. -/
theorem planning_error_leaks_iter :
    iterCloseCount [OrderSpec.byKey, OrderSpec.byKeyDescending] = 0 ∧
    planQuery [OrderSpec.byKey, OrderSpec.byKeyDescending]
      = PlanOutcome.planError := by
  exact ⟨rfl, rfl⟩

/-! ### Batch writer (datastore.go:411-435) -/

/-- A pending engine-batch operation. -/
inductive BatchOp
  | set (k v : List Nat)
  | del (k : List Nat)
  deriving DecidableEq

/-- Modelled from the spec: the engine collaborator (§6 NewBatch/Commit)
applies a committed batch's operations to the store in insertion order, so
a later operation on the same key shadows an earlier one.  The engine
itself is external to this repository. -/
def applyOp (st : List Nat → Option (List Nat)) :
    BatchOp → List Nat → Option (List Nat)
  | .set k v, x => if x = k then some v else st x
  | .del k, x => if x = k then none else st x

/-- Committing a batch folds its accumulated operations over the store in
insertion order (datastore.go:433-435 delegates to the engine commit). -/
def commitBatch (ops : List BatchOp) (st : List Nat → Option (List Nat)) :
    List Nat → Option (List Nat) :=
  ops.foldl applyOp st

/-- datastore.go:417-423: Batch.Put appends a set operation; no client-side
deduplication is performed. -/
def batchPut (ops : List BatchOp) (k v : List Nat) : List BatchOp :=
  ops ++ [.set k v]

/-- datastore.go:425-431: Batch.Delete appends a delete operation; no
client-side deduplication is performed. -/
def batchDelete (ops : List BatchOp) (k : List Nat) : List BatchOp :=
  ops ++ [.del k]

/-- C8: committing a batch that accumulated Put(K, a) then Delete(K) leaves
K absent, while the reverse accumulation leaves K bound to a: the later
operation on the same key wins, with no client-side deduplication. -/
theorem batch_last_op_wins (k a : List Nat) (st : List Nat → Option (List Nat)) :
    commitBatch (batchDelete (batchPut [] k a) k) st k = none ∧
    commitBatch (batchPut (batchDelete [] k) k a) st k = some a := by
  constructor
  · simp [commitBatch, batchPut, batchDelete, applyOp]
  · simp [commitBatch, batchPut, batchDelete, applyOp]

/-! ### Close lifecycle (datastore.go:367-377)

Close is modelled as a small-step system over a shared state with two
concurrent Close callers and a pool of outstanding streamers.  Each caller
runs the code of Close: a compare-and-swap on `status`, then either the
winner path (close the `closing` channel, wait on the WaitGroup, flush,
close the engine) or the loser path (wait on the WaitGroup, return nil). -/

/-- The program counter of one Close caller. -/
inductive ClosePC
  | start
  | loserWait
  | winBroadcast
  | winWait
  | winFlush
  | winDbClose
  | done
  deriving DecidableEq

/-- Shared state: the CAS status flag, whether the closing channel has been
closed, the outstanding-streamer count (WaitGroup), whether the engine has
been flushed, how many times the engine handle has been closed, and the
two callers' program counters. -/
structure CloseState where
  status : Bool
  closingClosed : Bool
  streamers : Nat
  flushed : Bool
  dbClosed : Nat
  t1 : ClosePC
  t2 : ClosePC
  deriving DecidableEq

def pcOf (s : CloseState) : Bool → ClosePC
  | true => s.t1
  | false => s.t2

def withPC (s : CloseState) : Bool → ClosePC → CloseState
  | true, p => { s with t1 := p }
  | false, p => { s with t2 := p }

/-- One atomic step of the Close protocol or of a streamer finishing. -/
inductive CloseStep : CloseState → CloseState → Prop
  | casWin {s : CloseState} (t : Bool) : pcOf s t = .start → s.status = false →
      CloseStep s { withPC s t .winBroadcast with status := true }
  | casFail {s : CloseState} (t : Bool) : pcOf s t = .start → s.status = true →
      CloseStep s (withPC s t .loserWait)
  | broadcast {s : CloseState} (t : Bool) : pcOf s t = .winBroadcast →
      CloseStep s { withPC s t .winWait with closingClosed := true }
  | waitDone {s : CloseState} (t : Bool) : pcOf s t = .winWait →
      s.streamers = 0 → CloseStep s (withPC s t .winFlush)
  | flushStep {s : CloseState} (t : Bool) : pcOf s t = .winFlush →
      CloseStep s { withPC s t .winDbClose with flushed := true }
  | dbCloseStep {s : CloseState} (t : Bool) : pcOf s t = .winDbClose →
      CloseStep s { withPC s t .done with dbClosed := s.dbClosed + 1 }
  | loserDone {s : CloseState} (t : Bool) : pcOf s t = .loserWait →
      s.streamers = 0 → CloseStep s (withPC s t .done)
  | streamerExit {s : CloseState} : 0 < s.streamers →
      CloseStep s { s with streamers := s.streamers - 1 }

/-- Initial state: datastore open, n outstanding streamers, both callers
about to invoke Close. -/
def closeInit (n : Nat) : CloseState :=
  ⟨false, false, n, false, 0, .start, .start⟩

def inWinner : ClosePC → Bool
  | .winBroadcast => true
  | .winWait => true
  | .winFlush => true
  | .winDbClose => true
  | _ => false

def pastWait : ClosePC → Bool
  | .winFlush => true
  | .winDbClose => true
  | _ => false

def pastBroadcast : ClosePC → Bool
  | .winWait => true
  | .winFlush => true
  | .winDbClose => true
  | _ => false

def wnum (s : CloseState) : Nat :=
  (if inWinner s.t1 then 1 else 0) + (if inWinner s.t2 then 1 else 0)

/-- Inductive invariant of the Close protocol. -/
def CloseInv (s : CloseState) : Prop :=
  (s.status = false → wnum s = 0) ∧
  (s.status = false → s.dbClosed = 0) ∧
  wnum s + s.dbClosed ≤ 1 ∧
  (pastWait s.t1 = true → s.streamers = 0) ∧
  (pastWait s.t2 = true → s.streamers = 0) ∧
  (1 ≤ s.dbClosed → s.streamers = 0) ∧
  (1 ≤ s.dbClosed → s.closingClosed = true) ∧
  (pastBroadcast s.t1 = true → s.closingClosed = true) ∧
  (pastBroadcast s.t2 = true → s.closingClosed = true) ∧
  (s.t1 = ClosePC.done → s.streamers = 0) ∧
  (s.t2 = ClosePC.done → s.streamers = 0)

theorem closeInv_init (n : Nat) : CloseInv (closeInit n) := by
  simp [CloseInv, closeInit, wnum, inWinner, pastWait, pastBroadcast]

set_option maxHeartbeats 1600000 in
theorem closeInv_step {s s' : CloseState} (hs : CloseInv s)
    (h : CloseStep s s') : CloseInv s' := by
  obtain ⟨st, cc, str, fl, dbc, p1, p2⟩ := s
  obtain ⟨i1, i2, i3, i4, i5, i6, i7, i8, i9, i10, i11⟩ := hs
  cases h with
  | casWin t hpc hst =>
    have hst' : st = false := hst
    subst hst'
    cases t with
    | true =>
      have hp : p1 = ClosePC.start := hpc
      subst hp
      cases hiw : inWinner p2 <;>
        simp_all [withPC, CloseInv, wnum, inWinner, pastWait, pastBroadcast] <;>
        omega
    | false =>
      have hp : p2 = ClosePC.start := hpc
      subst hp
      cases hiw : inWinner p1 <;>
        simp_all [withPC, CloseInv, wnum, inWinner, pastWait, pastBroadcast] <;>
        omega
  | casFail t hpc hst =>
    have hst' : st = true := hst
    subst hst'
    cases t with
    | true =>
      have hp : p1 = ClosePC.start := hpc
      subst hp
      cases hiw : inWinner p2 <;>
        simp_all [withPC, CloseInv, wnum, inWinner, pastWait, pastBroadcast] <;>
        omega
    | false =>
      have hp : p2 = ClosePC.start := hpc
      subst hp
      cases hiw : inWinner p1 <;>
        simp_all [withPC, CloseInv, wnum, inWinner, pastWait, pastBroadcast] <;>
        omega
  | broadcast t hpc =>
    cases t with
    | true =>
      have hp : p1 = ClosePC.winBroadcast := hpc
      subst hp
      cases st <;> cases hiw : inWinner p2 <;>
        simp_all [withPC, CloseInv, wnum, inWinner, pastWait, pastBroadcast] <;>
        omega
    | false =>
      have hp : p2 = ClosePC.winBroadcast := hpc
      subst hp
      cases st <;> cases hiw : inWinner p1 <;>
        simp_all [withPC, CloseInv, wnum, inWinner, pastWait, pastBroadcast] <;>
        omega
  | waitDone t hpc hstr =>
    have hstr' : str = 0 := hstr
    subst hstr'
    cases t with
    | true =>
      have hp : p1 = ClosePC.winWait := hpc
      subst hp
      cases st <;> cases hiw : inWinner p2 <;>
        simp_all [withPC, CloseInv, wnum, inWinner, pastWait, pastBroadcast] <;>
        omega
    | false =>
      have hp : p2 = ClosePC.winWait := hpc
      subst hp
      cases st <;> cases hiw : inWinner p1 <;>
        simp_all [withPC, CloseInv, wnum, inWinner, pastWait, pastBroadcast] <;>
        omega
  | flushStep t hpc =>
    cases t with
    | true =>
      have hp : p1 = ClosePC.winFlush := hpc
      subst hp
      cases st <;> cases hiw : inWinner p2 <;>
        simp_all [withPC, CloseInv, wnum, inWinner, pastWait, pastBroadcast] <;>
        omega
    | false =>
      have hp : p2 = ClosePC.winFlush := hpc
      subst hp
      cases st <;> cases hiw : inWinner p1 <;>
        simp_all [withPC, CloseInv, wnum, inWinner, pastWait, pastBroadcast] <;>
        omega
  | dbCloseStep t hpc =>
    cases t with
    | true =>
      have hp : p1 = ClosePC.winDbClose := hpc
      subst hp
      cases st <;> cases hiw : inWinner p2 <;>
        simp_all [withPC, CloseInv, wnum, inWinner, pastWait, pastBroadcast] <;>
        omega
    | false =>
      have hp : p2 = ClosePC.winDbClose := hpc
      subst hp
      cases st <;> cases hiw : inWinner p1 <;>
        simp_all [withPC, CloseInv, wnum, inWinner, pastWait, pastBroadcast] <;>
        omega
  | loserDone t hpc hstr =>
    have hstr' : str = 0 := hstr
    subst hstr'
    cases t with
    | true =>
      have hp : p1 = ClosePC.loserWait := hpc
      subst hp
      cases st <;> cases hiw : inWinner p2 <;>
        simp_all [withPC, CloseInv, wnum, inWinner, pastWait, pastBroadcast] <;>
        omega
    | false =>
      have hp : p2 = ClosePC.loserWait := hpc
      subst hp
      cases st <;> cases hiw : inWinner p1 <;>
        simp_all [withPC, CloseInv, wnum, inWinner, pastWait, pastBroadcast] <;>
        omega
  | streamerExit hstr =>
    have hstr' : 0 < str := hstr
    cases st <;> cases p1 <;> cases p2 <;>
      simp_all [CloseInv, wnum, inWinner, pastWait, pastBroadcast] <;>
      omega

theorem closeInv_reachable (n : Nat) (s : CloseState)
    (h : Relation.ReflTransGen CloseStep (closeInit n) s) : CloseInv s := by
  induction h with
  | refl => exact closeInv_init n
  | tail hsteps hstep ih => exact closeInv_step ih hstep

/-- C7 (amended): in every reachable state of the Close protocol the engine
handle has been closed at most once; whenever it has been closed, every
outstanding streamer had drained and the closing signal had been broadcast
first; a caller about to flush or close the engine has already observed a
drained streamer count and a broadcast closing signal; and a Close call —
first or duplicate — reaches its return only once the streamer count is
zero. -/
theorem close_lifecycle (n : Nat) (s : CloseState)
    (h : Relation.ReflTransGen CloseStep (closeInit n) s) :
    s.dbClosed ≤ 1 ∧
    (1 ≤ s.dbClosed → s.streamers = 0 ∧ s.closingClosed = true) ∧
    (pastWait s.t1 = true → s.streamers = 0 ∧ s.closingClosed = true) ∧
    (pastWait s.t2 = true → s.streamers = 0 ∧ s.closingClosed = true) ∧
    (s.t1 = ClosePC.done → s.streamers = 0) ∧
    (s.t2 = ClosePC.done → s.streamers = 0) := by
  obtain ⟨i1, i2, i3, i4, i5, i6, i7, i8, i9, i10, i11⟩ := closeInv_reachable n s h
  refine ⟨by omega, fun hd => ⟨i6 hd, i7 hd⟩, fun hw => ⟨i4 hw, ?_⟩,
    fun hw => ⟨i5 hw, ?_⟩, i10, i11⟩
  · cases h1 : s.t1 <;> simp_all [pastWait, pastBroadcast]
  · cases h2 : s.t2 <;> simp_all [pastWait, pastBroadcast]

theorem close_lifecycle_witness :
    (closeInit 2).dbClosed ≤ 1 ∧
    (1 ≤ (closeInit 2).dbClosed →
      (closeInit 2).streamers = 0 ∧ (closeInit 2).closingClosed = true) ∧
    (pastWait (closeInit 2).t1 = true →
      (closeInit 2).streamers = 0 ∧ (closeInit 2).closingClosed = true) ∧
    (pastWait (closeInit 2).t2 = true →
      (closeInit 2).streamers = 0 ∧ (closeInit 2).closingClosed = true) ∧
    ((closeInit 2).t1 = ClosePC.done → (closeInit 2).streamers = 0) ∧
    ((closeInit 2).t2 = ClosePC.done → (closeInit 2).streamers = 0) :=
  close_lifecycle 2 (closeInit 2) Relation.ReflTransGen.refl

/-- The state reached after the first caller wins the CAS and the second
caller takes the duplicate path and returns: the duplicate has finished
while the first close has not yet broadcast, flushed, or closed the engine. -/
def closeCexMid : CloseState :=
  ⟨true, false, 0, false, 0, ClosePC.winBroadcast, ClosePC.done⟩

/-- C7 as stated is false: a duplicate Close does not wait for the
in-progress close to finish.  From an idle open datastore, after caller 1
wins the CAS, caller 2 fails the CAS, waits on the (already drained)
WaitGroup and returns — reaching a state where caller 2 is done while
caller 1 has not yet broadcast the closing signal, flushed, or closed the
engine handle. -/
theorem duplicate_close_returns_early :
    Relation.ReflTransGen CloseStep (closeInit 0) closeCexMid ∧
    closeCexMid.t2 = ClosePC.done ∧
    closeCexMid.t1 = ClosePC.winBroadcast ∧
    closeCexMid.dbClosed = 0 ∧
    closeCexMid.flushed = false ∧
    closeCexMid.closingClosed = false := by
  refine ⟨?_, rfl, rfl, rfl, rfl, rfl⟩
  have h1 : CloseStep (closeInit 0)
      ⟨true, false, 0, false, 0, ClosePC.winBroadcast, ClosePC.start⟩ :=
    CloseStep.casWin true rfl rfl
  have h2 : CloseStep
      ⟨true, false, 0, false, 0, ClosePC.winBroadcast, ClosePC.start⟩
      ⟨true, false, 0, false, 0, ClosePC.winBroadcast, ClosePC.loserWait⟩ :=
    CloseStep.casFail false rfl rfl
  have h3 : CloseStep
      ⟨true, false, 0, false, 0, ClosePC.winBroadcast, ClosePC.loserWait⟩
      closeCexMid :=
    CloseStep.loserDone false rfl rfl
  exact Relation.ReflTransGen.head h1 (Relation.ReflTransGen.head h2
    (Relation.ReflTransGen.head h3 Relation.ReflTransGen.refl))

end PebbleDS
